import Mathlib

/-!
Verification development for the chunked-proof subsystem of the merk
repository (src/src/proofs/chunk.rs). The proof instruction model, the
generator (create_trunk_proof with its helpers traverse_for_height_proof
and traverse_for_trunk), the verifiers (verify_trunk with
verify_height_proof and verify_completeness, verify_leaf) and the
streaming leaf-chunk builder (get_next_chunk) are embedded as executable
Lean functions. Collaborator code that lives outside chunk.rs (the tree
walk capability, the proof-execution engine and the hash combination) is
modelled from the specification, as marked in the doc comments.
-/

namespace Merk

/-- Keys and values are byte strings; bytes are modelled as natural numbers. -/
abbrev Bytes := List Nat

/-- Modelled from the spec: the hash function itself is an external
collaborator, so digests are modelled as natural numbers produced by an
injective pairing rather than a cryptographic function. -/
abbrev Digest := Nat

/-- Modelled from the spec: encoding of a byte string into a number, used to
feed key and value bytes into the modelled hash functions. -/
def bytesCode (bs : Bytes) : Nat :=
  bs.foldr (fun b acc => Nat.pair b acc + 1) 0

/-- Modelled from the spec: the fixed empty value standing in for the hash
contribution of an absent child. -/
def nullHash : Digest := 0

/-- Modelled from the spec: commitment to the hash of a single key-value
pair (the kv_hash of a tree node). -/
def kvHashFn (k v : Bytes) : Digest :=
  Nat.pair 1 (Nat.pair (bytesCode k) (bytesCode v))

/-- Modelled from the spec: a node hash combines the key-value-pair hash
contribution with the hash of each child, an absent child contributing the
fixed empty value. -/
def nodeHashFn (kvh l r : Digest) : Digest :=
  Nat.pair 2 (Nat.pair kvh (Nat.pair l r))

/-- Lexicographic strict order on byte strings, as the Rust slice
comparison used by get_next_chunk on keys. -/
def keyLt : Bytes → Bytes → Bool
  | [], [] => false
  | [], _ :: _ => true
  | _ :: _, [] => false
  | a :: as, b :: bs => if a < b then true else if b < a then false else keyLt as bs

/-- Node: what one proof step asserts about a subtree (chunk.rs operates on
this vocabulary; the variants are Hash, KVHash and KV). -/
inductive Node where
  | Hash (digest : Digest)
  | KVHash (digest : Digest)
  | KV (key value : Bytes)
deriving DecidableEq

/-- Op: instruction in the stack machine that builds a binary tree
bottom-up. -/
inductive Op where
  | Push (node : Node)
  | Parent
  | Child
deriving DecidableEq

def Node.isKV : Node → Bool
  | .KV _ _ => true
  | _ => false

def Node.isKVHash : Node → Bool
  | .KVHash _ => true
  | _ => false

def Node.isHash : Node → Bool
  | .Hash _ => true
  | _ => false

/-- Reconstructed tree produced by proof execution: the originating Node
plus at most one owned left and one owned right subtree. pnil stands for an
absent child and never appears as an execution result itself. -/
inductive PTree where
  | pnil
  | pnode (node : Node) (left right : PTree)
deriving DecidableEq

/-- Modelled from the spec: derived hash of a reconstructed tree node. A
Hash node contributes its digest as-is; a KVHash or KV node combines its
key-value-pair hash with the hash of each present child. -/
def pthash : PTree → Digest
  | .pnil => nullHash
  | .pnode n l r =>
    match n with
    | .Hash d => d
    | .KVHash d => nodeHashFn d (pthash l) (pthash r)
    | .KV k v => nodeHashFn (kvHashFn k v) (pthash l) (pthash r)

/-- Error taxonomy of the subsystem, following the specification: malformed
stack-machine sequences, validation rejections, missing trunk nodes and
leaf hash mismatches (which carry both digests). -/
inductive CErr where
  | malformedProof
  | unexpectedNodeKind
  | incompleteTrunk
  | hashMismatch (expected actual : Digest)
deriving DecidableEq

/-- Attach a child tree to a parent on the given side. -/
def pattach (isLeft : Bool) (parent child : PTree) : PTree :=
  match parent with
  | .pnil => .pnil
  | .pnode n l r => if isLeft then .pnode n child r else .pnode n l child

/-- Modelled from the spec: the proof-execution engine folds the Op stream
over a stack of reconstructed trees, invoking the validation callback on
every pushed node. Parent pops the top item as a parent and attaches the
next item as its left child; Child pops the top item and attaches it as
the right child of the item below. Underflow is a malformed proof. -/
def execOps (validate : Node → Except CErr Unit) :
    List Op → List PTree → Except CErr (List PTree)
  | [], stack => .ok stack
  | .Push n :: rest, stack =>
    match validate n with
    | .error e => .error e
    | .ok _ => execOps validate rest (.pnode n .pnil .pnil :: stack)
  | .Parent :: rest, stack =>
    match stack with
    | p :: c :: s => execOps validate rest (pattach true p c :: s)
    | _ => .error .malformedProof
  | .Child :: rest, stack =>
    match stack with
    | c :: p :: s => execOps validate rest (pattach false p c :: s)
    | _ => .error .malformedProof

/-- Modelled from the spec: execute runs the whole Op sequence starting
from an empty stack and fails unless exactly one tree remains. The
collapse flag is carried for interface fidelity; both chunk verifiers pass
false. -/
def execute (ops : List Op) (collapse : Bool)
    (validate : Node → Except CErr Unit) : Except CErr PTree :=
  match execOps validate ops [] with
  | .ok [t] => .ok t
  | .ok _ => .error .malformedProof
  | .error e => .error e

/-- Source-side tree over which trunk proofs are generated. nil stands for
an absent child, so the Rust walk returning None corresponds to a nil
child. The model is a consistent, fully materialised tree view, hence
child fetches never fail. -/
inductive MTree where
  | nil
  | node (key value : Bytes) (left right : MTree)
deriving DecidableEq

/-- Modelled from the spec: hash of a source tree node, combining its
key-value-pair hash with the hashes of its children. -/
def mhash : MTree → Digest
  | .nil => nullHash
  | .node k v l r => nodeHashFn (kvHashFn k v) (mhash l) (mhash r)

/-- Length of the left-child chain of a source tree, counting the root. -/
def leftLen : MTree → Nat
  | .nil => 0
  | .node _ _ l _ => 1 + leftLen l

/-- True height of a source tree (a single node has height 1). -/
def treeHeight : MTree → Nat
  | .nil => 0
  | .node _ _ l r => 1 + max (treeHeight l) (treeHeight r)

/-- Descend along left children a given number of steps. -/
def leftDescend : MTree → Nat → MTree
  | t, 0 => t
  | .nil, _ + 1 => .nil
  | .node _ _ l _, n + 1 => leftDescend l n

/-- Every node of the tree strictly above the given remaining depth has
both children present; this is exactly the condition under which
traverse_for_trunk reaches no failing unwrap. -/
def completeTo : MTree → Nat → Bool
  | .nil, _ => false
  | .node _ _ _ _, 0 => true
  | .node _ _ l r, rd + 1 => completeTo l rd && completeTo r rd

/-- Ops emitted for one spine node by the height-proof phase when its depth
exceeds the trunk height: its KVHash form, a Parent if it has a left
child, and the opaque Hash of its right child followed by Child if it has
one (chunk.rs lines 40 to 51). -/
def hpOwnOps (k v : Bytes) (hasLeft : Bool) (r : MTree) (th depth : Nat) : List Op :=
  if th < depth then
    Op.Push (Node.KVHash (kvHashFn k v)) ::
      ((if hasLeft then [Op.Parent] else []) ++
        (match r with
        | .nil => []
        | .node _ _ _ _ => [Op.Push (Node.Hash (mhash r)), Op.Child]))
  else []

/-- Embedding of traverse_for_height_proof: walk down the left-child
chain, compute the trunk height as half the depth of the chain end, and
emit ops (deepest node first) for every spine node whose depth exceeds the
trunk height. Returns the emitted ops and the trunk height. -/
def heightProofAux : MTree → Nat → List Op × Nat
  | .nil, _ => ([], 0)
  | .node k v .nil r, depth =>
    (hpOwnOps k v false r (depth / 2) depth, depth / 2)
  | .node k v (.node lk lv ll lr) r, depth =>
    let res := heightProofAux (.node lk lv ll lr) (depth + 1)
    (res.1 ++ hpOwnOps k v true r res.2 depth, res.2)

/-- Embedding of traverse_for_trunk: descend both children down to the
given remaining depth. The Rust code unwraps both child walks, panicking
when a child is absent above the trunk frontier; the panic is modelled as
none. At the frontier a leftmost node emits nothing (the height proof
already committed it) and any other node pushes its opaque Hash. -/
def trunkAux (t : MTree) (rd : Nat) (lm : Bool) : Option (List Op) :=
  match rd, t with
  | 0, t => if lm then some [] else some [Op.Push (Node.Hash (mhash t))]
  | _ + 1, .nil => none
  | _ + 1, .node _ _ .nil _ => none
  | _ + 1, .node _ _ (.node _ _ _ _) .nil => none
  | rd + 1, .node k v (.node lk lv ll lr) (.node rk rv rl rr) =>
    match trunkAux (.node lk lv ll lr) rd lm,
        trunkAux (.node rk rv rl rr) rd false with
    | some lops, some rops =>
      some (lops ++ [Op.Push (Node.KV k v), Op.Parent] ++ rops ++ [Op.Child])
    | _, _ => none

/-- Embedding of create_trunk_proof: run the height-proof phase starting
at depth 1, then the trunk-body phase to the computed trunk height, and
concatenate the two op lists. A panic in the trunk phase surfaces as
none. -/
def createTrunkProof (t : MTree) : Option (List Op) :=
  let hp := heightProofAux t 1
  match trunkAux t hp.2 true with
  | none => none
  | some tops => some (hp.1 ++ tops)

/-- Embedding of verify_height_proof: walk the left-child chain of the
reconstructed tree; a child whose node is an opaque Hash is a format
error; a node without left child counts 1 and each step adds 1. The pnil
case is unreachable from verify_trunk and is given the chain length 0. -/
def verifyHeightProof : PTree → Except CErr Nat
  | .pnil => .ok 0
  | .pnode _ l _ =>
    match l with
    | .pnil => .ok 1
    | .pnode ln ll lr =>
      if ln.isHash then .error .unexpectedNodeKind
      else
        match verifyHeightProof (.pnode ln ll lr) with
        | .error e => .error e
        | .ok h => .ok (h + 1)

/-- Embedding of verify_completeness: above the frontier a node must be KV
(checked first) and both children are visited, a missing child being the
incomplete-trunk error; at the frontier the node reached by always going
left must be KVHash and every other frontier node must be Hash. -/
def verifyCompleteness : PTree → Nat → Bool → Except CErr Unit
  | .pnil, _, _ => .error .incompleteTrunk
  | .pnode n _ _, 0, lm =>
    if lm then
      if n.isKVHash then .ok () else .error .unexpectedNodeKind
    else
      if n.isHash then .ok () else .error .unexpectedNodeKind
  | .pnode n l r, rd + 1, lm =>
    if n.isKV then
      match verifyCompleteness l rd lm with
      | .error e => .error e
      | .ok _ => verifyCompleteness r rd false
    else .error .unexpectedNodeKind

/-- The two structural checks verify_trunk performs on the reconstructed
tree after execution: the height proof, then completeness to expected
depth height over two. Returns the tree and the verified height. -/
def verifyTrunkTree (t : PTree) : Except CErr (PTree × Nat) :=
  match verifyHeightProof t with
  | .error e => .error e
  | .ok h =>
    match verifyCompleteness t (h / 2) true with
    | .error e => .error e
    | .ok _ => .ok (t, h)

/-- Validation callback of verify_trunk: every node kind is accepted,
since trunk proofs legitimately mix all three. -/
def okValidate : Node → Except CErr Unit := fun _ => .ok ()

/-- Embedding of verify_trunk: execute the ops with a validation callback
accepting every node kind, then run the structural checks. -/
def verifyTrunk (ops : List Op) : Except CErr (PTree × Nat) :=
  match execute ops false okValidate with
  | .error e => .error e
  | .ok t => verifyTrunkTree t

/-- Validation callback of verify_leaf: only fully revealed KV nodes are
accepted in a leaf chunk. -/
def leafValidate : Node → Except CErr Unit
  | .KV _ _ => .ok ()
  | _ => .error .unexpectedNodeKind

/-- Embedding of verify_leaf: execute the ops rejecting abridged nodes,
then compare the reconstructed root hash with the expected hash, failing
with both digests on mismatch. -/
def verifyLeaf (ops : List Op) (expectedHash : Digest) : Except CErr PTree :=
  match execute ops false leafValidate with
  | .error e => .error e
  | .ok t =>
    if pthash t = expectedHash then .ok t
    else .error (.hashMismatch expectedHash (pthash t))

/-- One persisted store entry as seen by get_next_chunk: a key, the node
value, and the keys of the linked left and right children if present. -/
structure Entry where
  key : Bytes
  value : Bytes
  leftLink : Option Bytes
  rightLink : Option Bytes
deriving DecidableEq

/-- The drain loop of get_next_chunk: while the top pending key is not
greater than the current key, pop it and emit Child. -/
def drain : List Bytes → Bytes → List Op × List Bytes
  | [], _ => ([], [])
  | topk :: s, k =>
    if keyLt k topk then ([], topk :: s)
    else
      let res := drain s k
      (Op.Child :: res.1, res.2)

/-- The iteration loop of get_next_chunk over decoded store entries:
stop before the end key; push the KV form of each entry; emit Parent when
a left link exists; push the key of a right link onto the pending stack,
otherwise drain the stack. Returns the emitted ops and the entries left
under the cursor. -/
def chunkLoop : List Entry → Option Bytes → List Bytes → List Op × List Entry
  | [], _, _ => ([], [])
  | e :: rest, ek, stack =>
    if ek = some e.key then ([], e :: rest)
    else
      let ops1 := Op.Push (Node.KV e.key e.value) ::
        (if e.leftLink.isSome then [Op.Parent] else [])
      match e.rightLink with
      | some ck =>
        let res := chunkLoop rest ek (ck :: stack)
        (ops1 ++ res.1, res.2)
      | none =>
        let dres := drain stack e.key
        let res := chunkLoop rest ek dres.2
        (ops1 ++ dres.1 ++ res.1, res.2)

/-- Embedding of get_next_chunk: run the loop from an empty pending stack,
then advance the cursor once more when it is still on an entry (the
matched end-key entry). -/
def getNextChunk (entries : List Entry) (endKey : Option Bytes) :
    List Op × List Entry :=
  let res := chunkLoop entries endKey []
  (res.1, match res.2 with
    | [] => []
    | _ :: r => r)

/-- The store entry encoding a source tree node: its key and value plus
the keys of its children when present. -/
def entryOf : MTree → Entry
  | .nil => ⟨[], [], none, none⟩
  | .node k v l r =>
    ⟨k, v,
      (match l with | .nil => none | .node lk _ _ _ => some lk),
      (match r with | .nil => none | .node rk _ _ _ => some rk)⟩

/-- The store iteration produced by a tree whose backing encoding obeys
the sort invariant: entries appear in key order, a node preceded by its
whole left subtree and followed by its whole right subtree. -/
def inorderEntries : MTree → List Entry
  | .nil => []
  | .node k v l r =>
    inorderEntries l ++ entryOf (.node k v l r) :: inorderEntries r

/-- Every key in the tree is strictly below the bound. -/
def allLt : MTree → Bytes → Bool
  | .nil, _ => true
  | .node k _ l r, b => keyLt k b && allLt l b && allLt r b

/-- Every key in the tree is strictly above the bound. -/
def allGt : MTree → Bytes → Bool
  | .nil, _ => true
  | .node k _ l r, b => keyLt b k && allGt l b && allGt r b

/-- The sort invariant of the backing store: keys of a left subtree fully
precede the node key, which precedes the keys of the right subtree. -/
def isBST : MTree → Bool
  | .nil => true
  | .node k _ l r => allLt l k && allGt r k && isBST l && isBST r

/-- The fully revealed reconstruction of a source tree: every node in KV
form with the same shape. -/
def kvTree : MTree → PTree
  | .nil => .pnil
  | .node k v l r => .pnode (.KV k v) (kvTree l) (kvTree r)

/-- The op sequence get_next_chunk emits for a complete subtree: left
subtree ops, the KV push, Parent when a left child exists, then right
subtree ops closed by Child. -/
def bodyOps : MTree → List Op
  | .nil => []
  | .node k v l r =>
    bodyOps l ++ Op.Push (Node.KV k v) ::
      ((match l with | .nil => [] | .node _ _ _ _ => [Op.Parent]) ++
        (match r with
        | .nil => []
        | .node _ _ _ _ => bodyOps r ++ [Op.Child]))

/-- Count of fully revealed KV nodes in a reconstructed tree. -/
def countKV : PTree → Nat
  | .pnil => 0
  | .pnode n l r => (if n.isKV then 1 else 0) + countKV l + countKV r

/-- Count of KVHash nodes in a reconstructed tree. -/
def countKVHash : PTree → Nat
  | .pnil => 0
  | .pnode n l r => (if n.isKVHash then 1 else 0) + countKVHash l + countKVHash r

/-- Count of opaque Hash nodes in a reconstructed tree. -/
def countHash : PTree → Nat
  | .pnil => 0
  | .pnode n l r => (if n.isHash then 1 else 0) + countHash l + countHash r

/-- One-node tree fixture (key 0). -/
def tOne : MTree := .node [0] [] .nil .nil

/-- Two-node right-heavy fixture: key 0 with right child 1. -/
def tTwoRight : MTree := .node [0] [] .nil (.node [1] [] .nil .nil)

/-- Two-node left-heavy fixture: key 1 with left child 0, as built by the
test two_node_left_heavy_tree_trunk_roundtrip. -/
def tTwoLeft : MTree := .node [1] [] (.node [0] [] .nil .nil) .nil

/-- Three-node balanced fixture: key 1 with children 0 and 2. -/
def tThree : MTree :=
  .node [1] [] (.node [0] [] .nil .nil) (.node [2] [] .nil .nil)

/-- Modelled from the spec: make_tree_seq lives in the test utilities
outside src, so the balanced fixture over sequential keys is built
directly as the complete binary tree with in-order keys. -/
def mkComplete : Nat → Nat → MTree
  | 0, _ => .nil
  | h + 1, off =>
    .node [off + 2 ^ h - 1] [] (mkComplete h off) (mkComplete h (off + 2 ^ h))

/-- The balanced tree built from 31 sequential keys. -/
def tree31 : MTree := mkComplete 5 0

/-- Key of the root of a source tree (empty for the absent tree). -/
def rootKey : MTree → Bytes
  | .nil => []
  | .node k _ _ _ => k

/-- Whether a source tree position holds a real node. -/
def isNode : MTree → Bool
  | .nil => false
  | .node _ _ _ _ => true

/-- The left-child chain of a source tree paired with node depths, listed
deepest node first, which is the emission order of the height-proof
phase. -/
def spineList : MTree → Nat → List (MTree × Nat)
  | .nil, _ => []
  | .node k v l r, d => spineList l (d + 1) ++ [(.node k v l r, d)]

/-- Concatenated height-proof emission over a list of spine nodes with
their depths, for a given trunk height. -/
def spineEmit : List (MTree × Nat) → Nat → List Op
  | [], _ => []
  | p :: ps, th =>
    (match p.1 with
      | .nil => []
      | .node k v l r => hpOwnOps k v (isNode l) r th p.2) ++ spineEmit ps th

/-- The reconstructed tree that the height-proof ops of a spine node
build: a KVHash chain, each link carrying the opaque Hash of its right
child as a leaf when that child exists. -/
def hpTree : MTree → PTree
  | .nil => .pnil
  | .node k v l r =>
    .pnode (.KVHash (kvHashFn k v)) (hpTree l)
      (match r with
        | .nil => .pnil
        | .node _ _ _ _ => .pnode (.Hash (mhash r)) .pnil .pnil)

/-- The reconstructed tree built by the trunk-body phase below a
non-leftmost position: KV nodes down to the frontier, opaque Hash leaves
at the frontier. -/
def bTree (u : MTree) (rd : Nat) : PTree :=
  match rd, u with
  | 0, t => .pnode (.Hash (mhash t)) .pnil .pnil
  | _ + 1, .nil => .pnil
  | rd + 1, .node k v l r => .pnode (.KV k v) (bTree l rd) (bTree r rd)

/-- The reconstructed tree built by the trunk-body phase along the
leftmost path: KV nodes whose leftmost frontier position is occupied by
the already-built height-proof tree. -/
def graftTree (u : MTree) (rd : Nat) (x : PTree) : PTree :=
  match rd, u with
  | 0, _ => x
  | _ + 1, .nil => .pnil
  | rd + 1, .node k v l r => .pnode (.KV k v) (graftTree l rd x) (bTree r rd)

/-- Whether the left-child chain of a reconstructed tree contains an
opaque Hash node, the root included. -/
def leftChainHasHash : PTree → Bool
  | .pnil => false
  | .pnode n l _ => n.isHash || leftChainHasHash l

/-- Length of the left-child chain of a reconstructed tree. -/
def leftChainLen : PTree → Nat
  | .pnil => 0
  | .pnode _ l _ => 1 + leftChainLen l

/-- Whether a required node is absent within the given trunk depth: a
reconstructed tree missing a child strictly above the frontier. -/
def missingWithin : PTree → Nat → Bool
  | .pnil, _ => true
  | .pnode _ _ _, 0 => false
  | .pnode _ l r, rd + 1 => missingWithin l rd || missingWithin r rd

/-- Whether the trunk node-kind rules are violated: a non-KV node above
the frontier, a non-KVHash node at the leftmost frontier position, or a
non-Hash node at any other frontier position. -/
def kindViolation : PTree → Nat → Bool → Bool
  | .pnil, _, _ => false
  | .pnode n _ _, 0, lm => if lm then !n.isKVHash else !n.isHash
  | .pnode n l r, rd + 1, lm => !n.isKV || kindViolation l rd lm || kindViolation r rd false

deriving instance DecidableEq for Except

/-- C1. The claim states that for trees of 1, 2 (both orientations), 3 and
N nodes the generate-then-verify round trip succeeds and reports the true
height. On the two-node left-heavy tree of the repository test suite the
generator itself fails: traverse_for_trunk unwraps the absent right child
of the root (modelled as none), so no proof is ever produced; and on the
two-node right-heavy tree the round trip succeeds but reports height 1
while the true height is 2. -/
theorem c1_small_tree_roundtrip_code_bug :
    createTrunkProof tTwoLeft = none ∧
      (createTrunkProof tTwoRight).map verifyTrunk =
        some (.ok (.pnode (.KVHash (kvHashFn [0] [])) .pnil
          (.pnode (.Hash (mhash (.node [1] [] .nil .nil))) .pnil .pnil), 1)) ∧
      treeHeight tTwoRight = 2 ∧ treeHeight tTwoLeft = 2 := by
  decide

/-- C2. The claim states that trunk-proof generation is total on every
consistent tree view, any failure being a propagated fetch error. On the
two-node left-heavy tree (a well-formed, balanced view used by the test
suite, on which no fetch can fail) the height-proof phase returns trunk
height 1, after which traverse_for_trunk dereferences the absent right
child of the root: a failure mode that is not a fetch error, modelled as
none. -/
theorem c2_generation_totality_code_bug :
    heightProofAux tTwoLeft 1 = ([Op.Push (Node.KVHash (kvHashFn [0] []))], 1) ∧
      trunkAux tTwoLeft 1 true = none := by
  decide

/-- C9. For the balanced tree built from 31 sequential keys, running
create_trunk_proof and then verify_trunk yields a reconstructed tree with
exactly 3 KV nodes, 3 KVHash nodes and 5 Hash nodes. -/
theorem c9_trunk_fixture_counts :
    (createTrunkProof tree31).map
        (fun ops => (verifyTrunk ops).toOption.map
          (fun p => (countKV p.1, countKVHash p.1, countHash p.1))) =
      some (some (3, 3, 5)) := by
  decide

/-- C10. verify_trunk never inspects below the frontier: this Op sequence
attaches an extra fully revealed KV subtree beneath the non-leftmost
frontier Hash node (the Parent op preceding the final Child grafts the KV
push under the Hash push), and verify_trunk still succeeds, returning the
reconstructed tree in which that Hash frontier node demonstrably carries a
child. -/
theorem c10_no_inspection_below_frontier :
    verifyTrunk
        [Op.Push (Node.KVHash 5), Op.Push (Node.KV [1] [1]), Op.Parent,
          Op.Push (Node.KV [9] [9]), Op.Push (Node.Hash 7), Op.Parent, Op.Child] =
      .ok (.pnode (.KV [1] [1]) (.pnode (.KVHash 5) .pnil .pnil)
        (.pnode (.Hash 7) (.pnode (.KV [9] [9]) .pnil .pnil) .pnil), 2) := by
  decide

/-- C3 counterexample. On the three-node balanced tree the computed trunk
height is 1 and the root has depth 1, so the claim (nodes of depth at most
the trunk height emit their KVHash) requires a push of the KVHash of the
root; but the entire height-proof emission is a single push of the KVHash
of the depth-2 left child, which differs from the KVHash of the root. The
emission condition is depth strictly greater than trunk height, not at
most. -/
theorem c3_counterexample :
    heightProofAux tThree 1 = ([Op.Push (Node.KVHash (kvHashFn [0] []))], 1) ∧
      Node.KVHash (kvHashFn [0] []) ≠ Node.KVHash (kvHashFn [1] []) := by
  decide

/-- C4 counterexample. In this reconstructed tree the root sits above the
frontier (the verified height is 2, so the expected depth is 1) and lacks
its right child, yet the completeness check fails with the
unexpected-node-kind error, not the missing-nodes error, because the
node-kind check on the Hash root runs before any child is inspected. -/
theorem c4_counterexample :
    verifyHeightProof (.pnode (.Hash 0) (.pnode (.KVHash 0) .pnil .pnil) .pnil) =
        .ok 2 ∧
      verifyCompleteness (.pnode (.Hash 0) (.pnode (.KVHash 0) .pnil .pnil) .pnil)
          (2 / 2) true = .error .unexpectedNodeKind := by
  decide

theorem vc_ok_iff (t : PTree) : ∀ (rd : Nat) (lm : Bool),
    verifyCompleteness t rd lm = .ok () ↔
      (missingWithin t rd = false ∧ kindViolation t rd lm = false) := by
  induction t with
  | pnil =>
    intro rd lm
    simp [verifyCompleteness, missingWithin]
  | pnode n l r ihl ihr =>
    intro rd lm
    cases rd with
    | zero =>
      cases n <;> cases lm <;>
        simp [verifyCompleteness, missingWithin, kindViolation,
          Node.isKV, Node.isKVHash, Node.isHash]
    | succ rd =>
      cases n with
      | KV k v =>
        have heq : verifyCompleteness (.pnode (.KV k v) l r) (rd + 1) lm =
            (match verifyCompleteness l rd lm with
              | .error e => .error e
              | .ok _ => verifyCompleteness r rd false) := rfl
        cases h : verifyCompleteness l rd lm with
        | error e =>
          rw [heq, h]
          simp only [missingWithin, kindViolation, Node.isKV]
          constructor
          · intro hc
            exact absurd hc (by simp)
          · rintro ⟨hm, hk⟩
            simp only [Bool.or_eq_false_iff] at hm hk
            have : verifyCompleteness l rd lm = .ok () :=
              (ihl rd lm).mpr ⟨hm.1, hk.1.2⟩
            rw [h] at this
            exact absurd this (by simp)
        | ok u =>
          rw [heq, h]
          have hl := (ihl rd lm)
          rw [h] at hl
          have hl2 : missingWithin l rd = false ∧ kindViolation l rd lm = false :=
            hl.mp rfl
          simp only [missingWithin, kindViolation, Node.isKV, ihr rd false,
            hl2.1, hl2.2]
          simp
      | Hash d =>
        have heq : verifyCompleteness (.pnode (.Hash d) l r) (rd + 1) lm =
            .error .unexpectedNodeKind := rfl
        rw [heq]
        simp [kindViolation, Node.isKV]
      | KVHash d =>
        have heq : verifyCompleteness (.pnode (.KVHash d) l r) (rd + 1) lm =
            .error .unexpectedNodeKind := rfl
        rw [heq]
        simp [kindViolation, Node.isKV]

theorem vc_incomplete (t : PTree) : ∀ (rd : Nat) (lm : Bool),
    verifyCompleteness t rd lm = .error .incompleteTrunk →
      missingWithin t rd = true := by
  induction t with
  | pnil =>
    intro rd lm _
    simp [missingWithin]
  | pnode n l r ihl ihr =>
    intro rd lm
    cases rd with
    | zero =>
      cases n <;> cases lm <;>
        simp [verifyCompleteness, Node.isKVHash, Node.isHash]
    | succ rd =>
      cases n with
      | KV k v =>
        have heq : verifyCompleteness (.pnode (.KV k v) l r) (rd + 1) lm =
            (match verifyCompleteness l rd lm with
              | .error e => .error e
              | .ok _ => verifyCompleteness r rd false) := rfl
        rw [heq]
        cases h : verifyCompleteness l rd lm with
        | error e =>
          intro hc
          have he : e = CErr.incompleteTrunk := by
            cases hc; rfl
          subst he
          simp [missingWithin, ihl rd lm h]
        | ok u =>
          intro hc
          simp [missingWithin, ihr rd false hc]
      | Hash d =>
        intro hc
        exact absurd hc (by simp [verifyCompleteness, Node.isKV])
      | KVHash d =>
        intro hc
        exact absurd hc (by simp [verifyCompleteness, Node.isKV])

theorem vc_kind (t : PTree) : ∀ (rd : Nat) (lm : Bool),
    verifyCompleteness t rd lm = .error .unexpectedNodeKind →
      kindViolation t rd lm = true := by
  induction t with
  | pnil =>
    intro rd lm hc
    exact absurd hc (by simp [verifyCompleteness])
  | pnode n l r ihl ihr =>
    intro rd lm
    cases rd with
    | zero =>
      cases n <;> cases lm <;>
        simp [verifyCompleteness, kindViolation,
          Node.isKV, Node.isKVHash, Node.isHash]
    | succ rd =>
      cases n with
      | KV k v =>
        have heq : verifyCompleteness (.pnode (.KV k v) l r) (rd + 1) lm =
            (match verifyCompleteness l rd lm with
              | .error e => .error e
              | .ok _ => verifyCompleteness r rd false) := rfl
        rw [heq]
        cases h : verifyCompleteness l rd lm with
        | error e =>
          intro hc
          have he : e = CErr.unexpectedNodeKind := by
            cases hc; rfl
          subst he
          simp [kindViolation, Node.isKV, ihl rd lm h]
        | ok u =>
          intro hc
          simp [kindViolation, Node.isKV, ihr rd false hc]
      | Hash d =>
        intro _
        simp [kindViolation, Node.isKV]
      | KVHash d =>
        intro _
        simp [kindViolation, Node.isKV]

/-- C4 as amended. The completeness check of verify_trunk succeeds exactly
when no required node is absent within the expected depth and no node-kind
rule is violated; it fails with the missing-nodes error only when a
required node within the depth is absent, and with the
unexpected-node-kind error only when a node above the frontier is not KV,
the leftmost frontier node is not KVHash, or another frontier node is not
Hash. Since the node-kind check precedes the child checks, a missing child
does not always surface as the missing-nodes error. -/
theorem c4_completeness_characterisation (t : PTree) (rd : Nat) (lm : Bool) :
    (verifyCompleteness t rd lm = .ok () ↔
      (missingWithin t rd = false ∧ kindViolation t rd lm = false)) ∧
    (verifyCompleteness t rd lm = .error .incompleteTrunk →
      missingWithin t rd = true) ∧
    (verifyCompleteness t rd lm = .error .unexpectedNodeKind →
      kindViolation t rd lm = true) :=
  ⟨vc_ok_iff t rd lm, vc_incomplete t rd lm, vc_kind t rd lm⟩

/-- C4 witness: a missing node at the frontier yields the missing-nodes
fact, and a KV node at the leftmost frontier yields the kind-violation
fact, both obtained through the characterisation theorem. -/
theorem c4_completeness_characterisation_witness :
    missingWithin PTree.pnil 0 = true ∧
      kindViolation (.pnode (.KV [] []) .pnil .pnil) 0 true = true :=
  ⟨(c4_completeness_characterisation .pnil 0 true).2.1 (by decide),
    (c4_completeness_characterisation (.pnode (.KV [] []) .pnil .pnil) 0 true).2.2
      (by decide)⟩

theorem vh_fail_or_hash_root (t : PTree) : leftChainHasHash t = true →
    (∃ e, verifyHeightProof t = .error e) ∨
      (∃ d l r, t = .pnode (.Hash d) l r) := by
  induction t with
  | pnil => simp [leftChainHasHash]
  | pnode n l r ihl =>
    intro h
    cases n with
    | Hash d => exact Or.inr ⟨d, l, r, rfl⟩
    | KVHash d =>
      have hl : leftChainHasHash l = true := by
        simpa [leftChainHasHash, Node.isHash] using h
      cases l with
      | pnil => simp [leftChainHasHash] at hl
      | pnode ln ll lr =>
        rcases ihl hl with ⟨e, he⟩ | ⟨dg, xl, xr, hx⟩
        · by_cases hh : ln.isHash = true
          · exact Or.inl ⟨.unexpectedNodeKind, by simp [verifyHeightProof, hh]⟩
          · refine Or.inl ⟨e, ?_⟩
            simp only [verifyHeightProof, hh]
            rw [he]
            simp [Bool.not_eq_true] at hh
            simp [hh]
        · refine Or.inl ⟨.unexpectedNodeKind, ?_⟩
          cases hx
          simp [verifyHeightProof, Node.isHash]
    | KV k v =>
      have hl : leftChainHasHash l = true := by
        simpa [leftChainHasHash, Node.isHash] using h
      cases l with
      | pnil => simp [leftChainHasHash] at hl
      | pnode ln ll lr =>
        rcases ihl hl with ⟨e, he⟩ | ⟨dg, xl, xr, hx⟩
        · by_cases hh : ln.isHash = true
          · exact Or.inl ⟨.unexpectedNodeKind, by simp [verifyHeightProof, hh]⟩
          · refine Or.inl ⟨e, ?_⟩
            simp only [verifyHeightProof, hh]
            rw [he]
            simp [Bool.not_eq_true] at hh
            simp [hh]
        · refine Or.inl ⟨.unexpectedNodeKind, ?_⟩
          cases hx
          simp [verifyHeightProof, Node.isHash]

theorem vc_hash_root_fails (dg : Digest) (l r : PTree) (d : Nat) :
    verifyCompleteness (.pnode (.Hash dg) l r) d true =
      .error .unexpectedNodeKind := by
  cases d with
  | zero => simp [verifyCompleteness, Node.isKVHash]
  | succ d => simp [verifyCompleteness, Node.isKV]

/-- C5. A reconstructed tree whose left-child chain contains an opaque
Hash node anywhere (the root included) makes the structural checks of
verify_trunk fail: a non-root chain Hash is caught by the height-proof
walk, and a Hash root by the completeness check of the frontier or of the
nodes above it. On a tree whose chain is free of Hash nodes, the
height-proof check returns the chain length, counting 1 for a node
without left child and adding 1 per step. -/
theorem c5_height_proof_spine (t : PTree) :
    (leftChainHasHash t = true → ∃ e, verifyTrunkTree t = .error e) ∧
      (leftChainHasHash t = false →
        verifyHeightProof t = .ok (leftChainLen t)) := by
  constructor
  · intro h
    rcases vh_fail_or_hash_root t h with ⟨e, he⟩ | ⟨dg, l, r, hx⟩
    · exact ⟨e, by simp [verifyTrunkTree, he]⟩
    · subst hx
      cases hv : verifyHeightProof (.pnode (.Hash dg) l r) with
      | error e => exact ⟨e, by simp [verifyTrunkTree, hv]⟩
      | ok h2 =>
        exact ⟨.unexpectedNodeKind,
          by simp [verifyTrunkTree, hv, vc_hash_root_fails]⟩
  · induction t with
    | pnil =>
      intro _
      simp [verifyHeightProof, leftChainLen]
    | pnode n l r ihl =>
      intro h
      cases l with
      | pnil => simp [verifyHeightProof, leftChainLen]
      | pnode ln ll lr =>
        have hn : ln.isHash = false := by
          have := h
          simp [leftChainHasHash, Bool.or_eq_false_iff] at this
          simpa [leftChainHasHash, Bool.or_eq_false_iff] using this.2.1
        have hl : leftChainHasHash (.pnode ln ll lr) = false := by
          simp [leftChainHasHash, Bool.or_eq_false_iff] at h
          simp [leftChainHasHash, Bool.or_eq_false_iff]
          exact h.2
        have hrec := ihl hl
        simp only [verifyHeightProof, hn]
        rw [hrec]
        simp [leftChainLen, Nat.add_comm]

/-- C5 witness: the checks reject a tree whose root is an opaque Hash
node, and accept a single fully revealed node with chain length 1, both
through the theorem. -/
theorem c5_height_proof_spine_witness :
    (∃ e, verifyTrunkTree (.pnode (.Hash 0) .pnil .pnil) = .error e) ∧
      verifyHeightProof (.pnode (.KV [] []) .pnil .pnil) =
        .ok (leftChainLen (.pnode (.KV [] []) .pnil .pnil)) :=
  ⟨(c5_height_proof_spine (.pnode (.Hash 0) .pnil .pnil)).1 (by decide),
    (c5_height_proof_spine (.pnode (.KV [] []) .pnil .pnil)).2 (by decide)⟩

theorem execOps_leaf_bad (ops : List Op) : ∀ (n : Node), Op.Push n ∈ ops →
    n.isKV = false → ∀ stack, ∃ e, execOps leafValidate ops stack = .error e := by
  induction ops with
  | nil =>
    intro n h
    simp at h
  | cons op rest ih =>
    intro n hmem hbad stack
    rcases List.mem_cons.mp hmem with heq | hmem2
    · cases heq
      cases n with
      | KV k v => simp [Node.isKV] at hbad
      | Hash d => exact ⟨.unexpectedNodeKind, by simp [execOps, leafValidate]⟩
      | KVHash d => exact ⟨.unexpectedNodeKind, by simp [execOps, leafValidate]⟩
    · cases op with
      | Push m =>
        cases m with
        | KV k v =>
          obtain ⟨e, he⟩ := ih n hmem2 hbad (.pnode (.KV k v) .pnil .pnil :: stack)
          exact ⟨e, by simp [execOps, leafValidate, he]⟩
        | Hash d => exact ⟨.unexpectedNodeKind, by simp [execOps, leafValidate]⟩
        | KVHash d => exact ⟨.unexpectedNodeKind, by simp [execOps, leafValidate]⟩
      | Parent =>
        match stack with
        | [] => exact ⟨.malformedProof, by simp [execOps]⟩
        | [p] => exact ⟨.malformedProof, by simp [execOps]⟩
        | p :: c :: s =>
          obtain ⟨e, he⟩ := ih n hmem2 hbad (pattach true p c :: s)
          exact ⟨e, by simp [execOps, he]⟩
      | Child =>
        match stack with
        | [] => exact ⟨.malformedProof, by simp [execOps]⟩
        | [p] => exact ⟨.malformedProof, by simp [execOps]⟩
        | c :: p :: s =>
          obtain ⟨e, he⟩ := ih n hmem2 hbad (pattach false p c :: s)
          exact ⟨e, by simp [execOps, he]⟩

/-- C6. verify_leaf succeeds with tree t exactly when executing the ops
under the leaf validation callback succeeds with t and the reconstructed
root hash equals the caller-supplied expected hash; an abridged Hash or
KVHash push anywhere in the sequence forces a failure; and a root-hash
mismatch fails with an error carrying both the expected and the actual
digest. -/
theorem c6_verify_leaf_contract (ops : List Op) (eh : Digest) :
    (∀ t, verifyLeaf ops eh = .ok t ↔
      (execute ops false leafValidate = .ok t ∧ pthash t = eh)) ∧
    ((∃ n, Op.Push n ∈ ops ∧ n.isKV = false) →
      ∃ e, verifyLeaf ops eh = .error e) ∧
    (∀ t, execute ops false leafValidate = .ok t → pthash t ≠ eh →
      verifyLeaf ops eh = .error (.hashMismatch eh (pthash t))) := by
  refine ⟨?_, ?_, ?_⟩
  · intro t
    cases hex : execute ops false leafValidate with
    | error e => simp [verifyLeaf, hex]
    | ok u =>
      by_cases hh : pthash u = eh
      · simp only [verifyLeaf, hex, hh, if_pos]
        constructor
        · rintro h2
          cases h2
          exact ⟨rfl, hh⟩
        · rintro ⟨h2, _⟩
          cases h2
          rfl
      · simp only [verifyLeaf, hex, hh, if_neg]
        constructor
        · rintro h2
          cases h2
        · rintro ⟨h2, hc⟩
          cases h2
          exact absurd hc hh
  · rintro ⟨n, hmem, hbad⟩
    obtain ⟨e, he⟩ := execOps_leaf_bad ops n hmem hbad []
    exact ⟨e, by simp [verifyLeaf, execute, he]⟩
  · intro t hex hne
    simp [verifyLeaf, hex, hne]

/-- C6 witness: a one-push KV chunk verifies against its own hash, and a
chunk containing a KVHash push fails, both through the theorem. -/
theorem c6_verify_leaf_contract_witness :
    verifyLeaf [Op.Push (Node.KV [] [])] (pthash (.pnode (.KV [] []) .pnil .pnil)) =
        .ok (.pnode (.KV [] []) .pnil .pnil) ∧
      ∃ e, verifyLeaf [Op.Push (Node.KVHash 0)] 0 = .error e :=
  ⟨((c6_verify_leaf_contract [Op.Push (Node.KV [] [])]
        (pthash (.pnode (.KV [] []) .pnil .pnil))).1
      (.pnode (.KV [] []) .pnil .pnil)).mpr ⟨by decide, rfl⟩,
    (c6_verify_leaf_contract [Op.Push (Node.KVHash 0)] 0).2.1
      ⟨Node.KVHash 0, by decide, by decide⟩⟩

theorem execOps_append (v : Node → Except CErr Unit) (a : List Op) :
    ∀ (b : List Op) (P Q : List PTree), execOps v a P = .ok Q →
      execOps v (a ++ b) P = execOps v b Q := by
  induction a with
  | nil =>
    intro b P Q h
    simp only [execOps] at h
    cases h
    simp
  | cons op a ih =>
    intro b P Q h
    cases op with
    | Push n =>
      have heq : execOps v (Op.Push n :: a) P =
          (match v n with
            | .error e => .error e
            | .ok _ => execOps v a (.pnode n .pnil .pnil :: P)) := rfl
      have heq2 : execOps v ((Op.Push n :: a) ++ b) P =
          (match v n with
            | .error e => .error e
            | .ok _ => execOps v (a ++ b) (.pnode n .pnil .pnil :: P)) := rfl
      rw [heq] at h
      rw [heq2]
      cases hv : v n with
      | error e =>
        rw [hv] at h
        exact absurd h (by simp)
      | ok u =>
        rw [hv] at h
        exact ih b _ Q h
    | Parent =>
      rcases P with _ | ⟨p, _ | ⟨c, s⟩⟩
      · exact absurd h (by simp [execOps])
      · exact absurd h (by simp [execOps])
      · have heq : execOps v (Op.Parent :: a) (p :: c :: s) =
            execOps v a (pattach true p c :: s) := rfl
        have heq2 : execOps v ((Op.Parent :: a) ++ b) (p :: c :: s) =
            execOps v (a ++ b) (pattach true p c :: s) := rfl
        rw [heq] at h
        rw [heq2]
        exact ih b _ Q h
    | Child =>
      rcases P with _ | ⟨c, _ | ⟨p, s⟩⟩
      · exact absurd h (by simp [execOps])
      · exact absurd h (by simp [execOps])
      · have heq : execOps v (Op.Child :: a) (c :: p :: s) =
            execOps v a (pattach false p c :: s) := rfl
        have heq2 : execOps v ((Op.Child :: a) ++ b) (c :: p :: s) =
            execOps v (a ++ b) (pattach false p c :: s) := rfl
        rw [heq] at h
        rw [heq2]
        exact ih b _ Q h

theorem hp_th (t : MTree) : t ≠ .nil → ∀ d, 1 ≤ d →
    (heightProofAux t d).2 = (d - 1 + leftLen t) / 2 := by
  induction t with
  | nil => intro h; exact absurd rfl h
  | node k v l r ihl ihr =>
    intro _ d hd
    cases l with
    | nil =>
      simp only [heightProofAux]
      simp only [leftLen]
      omega
    | node lk lv ll lr =>
      simp only [heightProofAux]
      rw [ihl (by simp) (d + 1) (by omega)]
      simp only [leftLen]
      omega

theorem run_heightProof (t : MTree) : t ≠ .nil → ∀ d, 1 ≤ d → ∀ P,
    execOps okValidate (heightProofAux t d).1 P =
      .ok (hpTree (leftDescend t ((d - 1 + leftLen t) / 2 + 1 - d)) :: P) := by
  induction t with
  | nil => intro h; exact absurd rfl h
  | node k v l r ihl ihr =>
    intro _ d hd P
    cases l with
    | nil =>
      have hlen : d - 1 + leftLen (MTree.node k v .nil r) = d := by
        simp [leftLen]
        omega
      rw [hlen]
      have hz : d / 2 + 1 - d = 0 := by omega
      rw [hz]
      simp only [heightProofAux, leftDescend]
      have hlt : d / 2 < d := by omega
      cases r with
      | nil =>
        simp [hpOwnOps, hlt, execOps, okValidate, hpTree]
      | node rk rv rl rr =>
        simp [hpOwnOps, hlt, execOps, okValidate, hpTree, pattach]
    | node lk lv ll lr =>
      have hlen : d - 1 + leftLen (MTree.node k v (.node lk lv ll lr) r) =
          d + leftLen (.node lk lv ll lr) := by
        simp [leftLen]
        omega
      rw [hlen]
      simp only [heightProofAux]
      have hth : (heightProofAux (.node lk lv ll lr) (d + 1)).2 =
          (d + leftLen (.node lk lv ll lr)) / 2 := by
        have := hp_th (.node lk lv ll lr) (by simp) (d + 1) (by omega)
        simpa using this
      have hrun := ihl (by simp) (d + 1) (by omega) P
      have hlen2 : d + 1 - 1 + leftLen (.node lk lv ll lr) =
          d + leftLen (.node lk lv ll lr) := by omega
      rw [hlen2] at hrun
      rw [execOps_append okValidate _ _ _ _ hrun, hth]
      by_cases hlt : (d + leftLen (.node lk lv ll lr)) / 2 < d
      · have hz : (d + leftLen (.node lk lv ll lr)) / 2 + 1 - d = 0 := by omega
        have hz2 : (d + leftLen (.node lk lv ll lr)) / 2 + 1 - (d + 1) = 0 := by
          omega
        rw [hz, hz2]
        simp only [leftDescend]
        cases r with
        | nil =>
          simp [hpOwnOps, hlt, execOps, okValidate, hpTree, pattach]
        | node rk rv rl rr =>
          simp [hpOwnOps, hlt, execOps, okValidate, hpTree, pattach]
      · have hge : d ≤ (d + leftLen (.node lk lv ll lr)) / 2 := by omega
        have hsplit : (d + leftLen (.node lk lv ll lr)) / 2 + 1 - d =
            ((d + leftLen (.node lk lv ll lr)) / 2 + 1 - (d + 1)) + 1 := by
          omega
        rw [hsplit]
        simp only [leftDescend]
        simp [hpOwnOps, hlt, execOps]

theorem trunkAux_zero (t : MTree) (lm : Bool) :
    trunkAux t 0 lm =
      (if lm then some [] else some [Op.Push (Node.Hash (mhash t))]) := by
  simp [trunkAux]

theorem trunkAux_succ_nil (rd : Nat) (lm : Bool) :
    trunkAux .nil (rd + 1) lm = none := by
  simp [trunkAux]

theorem trunkAux_succ_nil_left (k v : Bytes) (r : MTree) (rd : Nat) (lm : Bool) :
    trunkAux (.node k v .nil r) (rd + 1) lm = none := by
  simp [trunkAux]

theorem trunkAux_succ_nil_right (k v lk lv : Bytes) (ll lr : MTree) (rd : Nat)
    (lm : Bool) :
    trunkAux (.node k v (.node lk lv ll lr) .nil) (rd + 1) lm = none := by
  simp [trunkAux]

theorem trunkAux_succ_node (k v lk lv rk rv : Bytes) (ll lr rl rr : MTree)
    (rd : Nat) (lm : Bool) :
    trunkAux (.node k v (.node lk lv ll lr) (.node rk rv rl rr)) (rd + 1) lm =
      (match trunkAux (.node lk lv ll lr) rd lm,
          trunkAux (.node rk rv rl rr) rd false with
        | some lops, some rops =>
          some (lops ++ [Op.Push (Node.KV k v), Op.Parent] ++ rops ++ [Op.Child])
        | _, _ => none) := by
  simp [trunkAux]

theorem trunkAux_some : ∀ (rd : Nat) (u : MTree) (lm : Bool) (ops : List Op),
    u ≠ .nil → trunkAux u rd lm = some ops → completeTo u rd = true := by
  intro rd
  induction rd with
  | zero =>
    intro u lm ops hu _
    cases u with
    | nil => exact absurd rfl hu
    | node k v l r => simp [completeTo]
  | succ rd ih =>
    intro u lm ops hu h
    cases u with
    | nil => exact absurd rfl hu
    | node k v l r =>
      cases l with
      | nil => simp [trunkAux_succ_nil_left] at h
      | node lk lv ll lr =>
        cases r with
        | nil => simp [trunkAux_succ_nil_right] at h
        | node rk rv rl rr =>
          rw [trunkAux_succ_node] at h
          cases h1 : trunkAux (.node lk lv ll lr) rd lm with
          | none => rw [h1] at h; simp at h
          | some lops =>
            cases h2 : trunkAux (.node rk rv rl rr) rd false with
            | none => rw [h1, h2] at h; simp at h
            | some rops =>
              simp only [completeTo, Bool.and_eq_true]
              exact ⟨ih _ lm lops (by simp) h1, ih _ false rops (by simp) h2⟩

theorem run_trunkAux : ∀ (rd : Nat) (u : MTree),
    (∀ ops, trunkAux u rd false = some ops →
      ∀ P, execOps okValidate ops P = .ok (bTree u rd :: P)) ∧
    (∀ ops, trunkAux u rd true = some ops →
      ∀ x P, execOps okValidate ops (x :: P) = .ok (graftTree u rd x :: P)) := by
  intro rd
  induction rd with
  | zero =>
    intro u
    constructor
    · intro ops h P
      have : ops = [Op.Push (Node.Hash (mhash u))] := by
        simpa [trunkAux_zero] using h.symm
      subst this
      simp [execOps, okValidate, bTree]
    · intro ops h x P
      have : ops = [] := by
        simpa [trunkAux_zero] using h.symm
      subst this
      simp [execOps, graftTree]
  | succ rd ih =>
    intro u
    constructor
    · intro ops h P
      cases u with
      | nil => simp [trunkAux_succ_nil] at h
      | node k v l r =>
        cases l with
        | nil => simp [trunkAux_succ_nil_left] at h
        | node lk lv ll lr =>
          cases r with
          | nil => simp [trunkAux_succ_nil_right] at h
          | node rk rv rl rr =>
            rw [trunkAux_succ_node] at h
            cases h1 : trunkAux (.node lk lv ll lr) rd false with
            | none => rw [h1] at h; simp at h
            | some lops =>
              cases h2 : trunkAux (.node rk rv rl rr) rd false with
              | none => rw [h1, h2] at h; simp at h
              | some rops =>
                rw [h1, h2] at h
                have hops : some (lops ++ [Op.Push (Node.KV k v), Op.Parent] ++
                    rops ++ [Op.Child]) = some ops := h
                injection hops with hops2
                subst hops2
                have hl := (ih (.node lk lv ll lr)).1 lops h1 P
                rw [show lops ++ [Op.Push (Node.KV k v), Op.Parent] ++ rops ++
                    [Op.Child] = lops ++ ([Op.Push (Node.KV k v), Op.Parent] ++
                    (rops ++ [Op.Child])) by simp]
                rw [execOps_append okValidate _ _ _ _ hl]
                have heq : execOps okValidate
                    ([Op.Push (Node.KV k v), Op.Parent] ++ (rops ++ [Op.Child]))
                    (bTree (.node lk lv ll lr) rd :: P) =
                    execOps okValidate (rops ++ [Op.Child])
                      (.pnode (.KV k v) (bTree (.node lk lv ll lr) rd) .pnil :: P) :=
                  rfl
                rw [heq]
                have hr := (ih (.node rk rv rl rr)).1 rops h2
                rw [execOps_append okValidate _ _ _ _ (hr _)]
                have heq2 : execOps okValidate [Op.Child]
                    (bTree (.node rk rv rl rr) rd ::
                      .pnode (.KV k v) (bTree (.node lk lv ll lr) rd) .pnil :: P) =
                    .ok (.pnode (.KV k v) (bTree (.node lk lv ll lr) rd)
                      (bTree (.node rk rv rl rr) rd) :: P) := rfl
                rw [heq2]
                simp [bTree]
    · intro ops h x P
      cases u with
      | nil => simp [trunkAux_succ_nil] at h
      | node k v l r =>
        cases l with
        | nil => simp [trunkAux_succ_nil_left] at h
        | node lk lv ll lr =>
          cases r with
          | nil => simp [trunkAux_succ_nil_right] at h
          | node rk rv rl rr =>
            rw [trunkAux_succ_node] at h
            cases h1 : trunkAux (.node lk lv ll lr) rd true with
            | none => rw [h1] at h; simp at h
            | some lops =>
              cases h2 : trunkAux (.node rk rv rl rr) rd false with
              | none => rw [h1, h2] at h; simp at h
              | some rops =>
                rw [h1, h2] at h
                have hops : some (lops ++ [Op.Push (Node.KV k v), Op.Parent] ++
                    rops ++ [Op.Child]) = some ops := h
                injection hops with hops2
                subst hops2
                have hl := (ih (.node lk lv ll lr)).2 lops h1 x P
                rw [show lops ++ [Op.Push (Node.KV k v), Op.Parent] ++ rops ++
                    [Op.Child] = lops ++ ([Op.Push (Node.KV k v), Op.Parent] ++
                    (rops ++ [Op.Child])) by simp]
                rw [execOps_append okValidate _ _ _ _ hl]
                have heq : execOps okValidate
                    ([Op.Push (Node.KV k v), Op.Parent] ++ (rops ++ [Op.Child]))
                    (graftTree (.node lk lv ll lr) rd x :: P) =
                    execOps okValidate (rops ++ [Op.Child])
                      (.pnode (.KV k v) (graftTree (.node lk lv ll lr) rd x)
                        .pnil :: P) :=
                  rfl
                rw [heq]
                have hr := (ih (.node rk rv rl rr)).1 rops h2
                rw [execOps_append okValidate _ _ _ _ (hr _)]
                have heq2 : execOps okValidate [Op.Child]
                    (bTree (.node rk rv rl rr) rd ::
                      .pnode (.KV k v) (graftTree (.node lk lv ll lr) rd x)
                        .pnil :: P) =
                    .ok (.pnode (.KV k v) (graftTree (.node lk lv ll lr) rd x)
                      (bTree (.node rk rv rl rr) rd) :: P) := rfl
                rw [heq2]
                simp [graftTree]

theorem leftLen_pos (t : MTree) : t ≠ .nil → 1 ≤ leftLen t := by
  cases t with
  | nil => intro h; exact absurd rfl h
  | node k v l r => intro _; simp only [leftLen]; omega

theorem leftDescend_nonnil : ∀ (n : Nat) (t : MTree), n < leftLen t →
    leftDescend t n ≠ .nil := by
  intro n
  induction n with
  | zero =>
    intro t h
    cases t with
    | nil => simp [leftLen] at h
    | node k v l r => simp [leftDescend]
  | succ n ih =>
    intro t h
    cases t with
    | nil => simp [leftLen] at h
    | node k v l r =>
      simp only [leftDescend]
      apply ih
      simp [leftLen] at h
      omega

theorem leftLen_leftDescend : ∀ (n : Nat) (t : MTree), n ≤ leftLen t →
    leftLen (leftDescend t n) = leftLen t - n := by
  intro n
  induction n with
  | zero =>
    intro t _
    simp [leftDescend]
  | succ n ih =>
    intro t h
    cases t with
    | nil => simp [leftLen] at h
    | node k v l r =>
      simp only [leftDescend, leftLen]
      rw [ih l (by simp [leftLen] at h; omega)]
      simp [leftLen] at h ⊢
      omega

theorem vh_hpTree (t : MTree) : t ≠ .nil →
    verifyHeightProof (hpTree t) = .ok (leftLen t) := by
  induction t with
  | nil => intro h; exact absurd rfl h
  | node k v l r ihl ihr =>
    intro _
    cases l with
    | nil =>
      simp [hpTree, verifyHeightProof, leftLen]
    | node lk lv ll lr =>
      have heq : verifyHeightProof (hpTree (.node k v (.node lk lv ll lr) r)) =
          (if (Node.KVHash (kvHashFn lk lv)).isHash then .error .unexpectedNodeKind
            else
              match verifyHeightProof (hpTree (.node lk lv ll lr)) with
              | .error e => .error e
              | .ok h => .ok (h + 1)) := rfl
      rw [heq, ihl (by simp)]
      simp [Node.isHash, leftLen]
      omega

theorem graft_root_not_hash (rd : Nat) (u : MTree) (x : PTree)
    (dg : Digest) (xl xr : PTree) :
    completeTo u rd = true → x = .pnode (.KVHash dg) xl xr →
      ∃ n gl gr, graftTree u rd x = .pnode n gl gr ∧ n.isHash = false := by
  cases rd with
  | zero =>
    intro _ hx
    subst hx
    exact ⟨.KVHash dg, xl, xr, by simp [graftTree], rfl⟩
  | succ rd =>
    intro hc _
    cases u with
    | nil => simp [completeTo] at hc
    | node k v l r =>
      exact ⟨.KV k v, graftTree l rd x, bTree r rd, by simp [graftTree], rfl⟩

theorem vh_graft : ∀ (rd : Nat) (u : MTree) (x : PTree) (dg : Digest)
    (xl xr : PTree) (m : Nat), completeTo u rd = true →
    x = .pnode (.KVHash dg) xl xr → verifyHeightProof x = .ok m →
      verifyHeightProof (graftTree u rd x) = .ok (rd + m) := by
  intro rd
  induction rd with
  | zero =>
    intro u x dg xl xr m _ _ hm
    simpa [graftTree] using hm
  | succ rd ih =>
    intro u x dg xl xr m hc hx hm
    cases u with
    | nil => simp [completeTo] at hc
    | node k v l r =>
      simp only [completeTo, Bool.and_eq_true] at hc
      have hrec := ih l x dg xl xr m hc.1 hx hm
      obtain ⟨n, gl, gr, hg, hnh⟩ := graft_root_not_hash rd l x dg xl xr hc.1 hx
      have heq : graftTree (.node k v l r) (rd + 1) x =
          .pnode (.KV k v) (graftTree l rd x) (bTree r rd) := by
        simp [graftTree]
      rw [heq, hg]
      have heq2 : verifyHeightProof (.pnode (.KV k v) (.pnode n gl gr) (bTree r rd)) =
          (if n.isHash then .error .unexpectedNodeKind
            else
              match verifyHeightProof (.pnode n gl gr) with
              | .error e => .error e
              | .ok h => .ok (h + 1)) := rfl
      rw [heq2, hnh]
      rw [hg] at hrec
      rw [hrec]
      simp
      omega

theorem vc_bTree : ∀ (rd : Nat) (u : MTree), completeTo u rd = true →
    verifyCompleteness (bTree u rd) rd false = .ok () := by
  intro rd
  induction rd with
  | zero =>
    intro u _
    simp [bTree, verifyCompleteness, Node.isHash]
  | succ rd ih =>
    intro u hc
    cases u with
    | nil => simp [completeTo] at hc
    | node k v l r =>
      simp only [completeTo, Bool.and_eq_true] at hc
      have heq0 : bTree (.node k v l r) (rd + 1) =
          .pnode (.KV k v) (bTree l rd) (bTree r rd) := by
        simp [bTree]
      have heq : verifyCompleteness (.pnode (.KV k v) (bTree l rd) (bTree r rd))
          (rd + 1) false =
          (if (Node.KV k v).isKV then
            match verifyCompleteness (bTree l rd) rd false with
            | .error e => .error e
            | .ok _ => verifyCompleteness (bTree r rd) rd false
          else .error .unexpectedNodeKind) := rfl
      rw [heq0, heq, ih l hc.1, ih r hc.2]
      simp [Node.isKV]

theorem vc_graft : ∀ (rd : Nat) (u : MTree) (x : PTree),
    completeTo u rd = true → verifyCompleteness x 0 true = .ok () →
      verifyCompleteness (graftTree u rd x) rd true = .ok () := by
  intro rd
  induction rd with
  | zero =>
    intro u x _ hx
    simpa [graftTree] using hx
  | succ rd ih =>
    intro u x hc hx
    cases u with
    | nil => simp [completeTo] at hc
    | node k v l r =>
      simp only [completeTo, Bool.and_eq_true] at hc
      have heq0 : graftTree (.node k v l r) (rd + 1) x =
          .pnode (.KV k v) (graftTree l rd x) (bTree r rd) := by
        simp [graftTree]
      have heq : verifyCompleteness
          (.pnode (.KV k v) (graftTree l rd x) (bTree r rd)) (rd + 1) true =
          (if (Node.KV k v).isKV then
            match verifyCompleteness (graftTree l rd x) rd true with
            | .error e => .error e
            | .ok _ => verifyCompleteness (bTree r rd) rd false
          else .error .unexpectedNodeKind) := rfl
      rw [heq0, heq, ih l x hc.1 hx, vc_bTree rd r hc.2]
      simp [Node.isKV]

theorem trunk_roundtrip (t : MTree) (ht : t ≠ .nil) (ops : List Op)
    (hgen : createTrunkProof t = some ops) :
    verifyTrunk ops =
      .ok (graftTree t (leftLen t / 2) (hpTree (leftDescend t (leftLen t / 2))),
        leftLen t) := by
  have hth : (heightProofAux t 1).2 = leftLen t / 2 := by
    simpa using hp_th t ht 1 (le_refl 1)
  have hgen2 : (match trunkAux t (heightProofAux t 1).2 true with
      | none => none
      | some tops => some ((heightProofAux t 1).1 ++ tops)) = some ops := hgen
  rw [hth] at hgen2
  cases htr : trunkAux t (leftLen t / 2) true with
  | none => rw [htr] at hgen2; simp at hgen2
  | some tops =>
    rw [htr] at hgen2
    simp only [Option.some.injEq] at hgen2
    have hcomp : completeTo t (leftLen t / 2) = true :=
      trunkAux_some (leftLen t / 2) t true tops ht htr
    have hA := run_heightProof t ht 1 (le_refl 1) []
    have hA2 : execOps okValidate (heightProofAux t 1).1 [] =
        .ok [hpTree (leftDescend t (leftLen t / 2))] := by
      have hidx : (1 - 1 + leftLen t) / 2 + 1 - 1 = leftLen t / 2 := by omega
      rw [hA, hidx]
    have hB := (run_trunkAux (leftLen t / 2) t).2 tops htr
      (hpTree (leftDescend t (leftLen t / 2))) []
    have hlt : leftLen t / 2 < leftLen t := by
      have := leftLen_pos t ht
      omega
    have hdn : leftDescend t (leftLen t / 2) ≠ .nil :=
      leftDescend_nonnil _ t hlt
    obtain ⟨k0, v0, l0, r0, hd0⟩ :
        ∃ k0 v0 l0 r0, leftDescend t (leftLen t / 2) = .node k0 v0 l0 r0 := by
      cases hdd : leftDescend t (leftLen t / 2) with
      | nil => exact absurd hdd hdn
      | node k0 v0 l0 r0 => exact ⟨k0, v0, l0, r0, rfl⟩
    obtain ⟨xr0, hx2⟩ : ∃ xr0, hpTree (.node k0 v0 l0 r0) =
        .pnode (.KVHash (kvHashFn k0 v0)) (hpTree l0) xr0 := by
      cases r0 with
      | nil => exact ⟨.pnil, rfl⟩
      | node a b c d =>
        exact ⟨.pnode (.Hash (mhash (.node a b c d))) .pnil .pnil, rfl⟩
    have hx : hpTree (leftDescend t (leftLen t / 2)) =
        .pnode (.KVHash (kvHashFn k0 v0)) (hpTree l0) xr0 := by
      rw [hd0, hx2]
    have hvhx : verifyHeightProof (hpTree (leftDescend t (leftLen t / 2))) =
        .ok (leftLen t - leftLen t / 2) := by
      rw [vh_hpTree _ hdn, leftLen_leftDescend _ t (by omega)]
    have hvh : verifyHeightProof
        (graftTree t (leftLen t / 2) (hpTree (leftDescend t (leftLen t / 2)))) =
        .ok (leftLen t) := by
      have hg := vh_graft (leftLen t / 2) t
        (hpTree (leftDescend t (leftLen t / 2))) (kvHashFn k0 v0) (hpTree l0) xr0
        (leftLen t - leftLen t / 2) hcomp hx hvhx
      rw [hg]
      have harith : leftLen t / 2 + (leftLen t - leftLen t / 2) = leftLen t := by
        omega
      rw [harith]
    have hxok : verifyCompleteness (hpTree (leftDescend t (leftLen t / 2))) 0 true =
        .ok () := by
      rw [hx]
      simp [verifyCompleteness, Node.isKVHash]
    have hvc : verifyCompleteness
        (graftTree t (leftLen t / 2) (hpTree (leftDescend t (leftLen t / 2))))
        (leftLen t / 2) true = .ok () :=
      vc_graft (leftLen t / 2) t _ hcomp hxok
    subst hgen2
    unfold verifyTrunk execute
    rw [execOps_append okValidate _ _ _ _ hA2, hB]
    simp only [verifyTrunkTree, hvh, hvc]

/-- C8. The generator and the verifier use the same halving convention:
traverse_for_height_proof starting at depth 1 returns half the depth of
the end of the left-child chain (integer division) as the trunk height,
and whenever a generated proof round-trips through verify_trunk the
verified height halved equals that trunk height, since the verified
height is exactly the left-chain length of the source tree. -/
theorem c8_halving_convention (t : MTree) (ops : List Op) (rt : PTree) (h : Nat)
    (hgen : createTrunkProof t = some ops)
    (hver : verifyTrunk ops = .ok (rt, h)) :
    (heightProofAux t 1).2 = leftLen t / 2 ∧ h / 2 = leftLen t / 2 := by
  cases t with
  | nil =>
    have h0 : createTrunkProof MTree.nil = some [] := by decide
    rw [h0] at hgen
    injection hgen with h1
    cases h1
    simp [verifyTrunk, execute, execOps] at hver
  | node k v l r =>
    have ht : MTree.node k v l r ≠ .nil := by simp
    refine ⟨by simpa using hp_th _ ht 1 (le_refl 1), ?_⟩
    have h2 := trunk_roundtrip _ ht ops hgen
    rw [hver] at h2
    have h3 := h2
    simp only [Except.ok.injEq, Prod.mk.injEq] at h3
    rw [h3.2]

/-- C8 witness: on the two-node right-heavy tree the generated proof
round-trips with verified height 1, and both halves equal the trunk
height 0. -/
theorem c8_halving_convention_witness :
    (heightProofAux tTwoRight 1).2 = leftLen tTwoRight / 2 ∧
      1 / 2 = leftLen tTwoRight / 2 :=
  c8_halving_convention tTwoRight
    [Op.Push (Node.KVHash (kvHashFn [0] [])),
      Op.Push (Node.Hash (mhash (.node [1] [] .nil .nil))), Op.Child]
    (.pnode (.KVHash (kvHashFn [0] [])) .pnil
      (.pnode (.Hash (mhash (.node [1] [] .nil .nil))) .pnil .pnil))
    1 (by decide) (by decide)

theorem spineEmit_append (a b : List (MTree × Nat)) (th : Nat) :
    spineEmit (a ++ b) th = spineEmit a th ++ spineEmit b th := by
  induction a with
  | nil => simp [spineEmit]
  | cons p ps ih => simp [spineEmit, ih]

theorem hp_emission (t : MTree) : t ≠ .nil → ∀ d, 1 ≤ d →
    heightProofAux t d =
      (spineEmit (spineList t d) ((d - 1 + leftLen t) / 2),
        (d - 1 + leftLen t) / 2) := by
  induction t with
  | nil => intro h; exact absurd rfl h
  | node k v l r ihl ihr =>
    intro _ d hd
    cases l with
    | nil =>
      have harith : (d - 1 + leftLen (MTree.node k v .nil r)) / 2 = d / 2 := by
        simp only [leftLen]
        omega
      rw [harith]
      simp [heightProofAux, spineList, spineEmit, isNode]
    | node lk lv ll lr =>
      have harith : (d - 1 + leftLen (MTree.node k v (.node lk lv ll lr) r)) / 2 =
          (d + 1 - 1 + leftLen (MTree.node lk lv ll lr)) / 2 := by
        simp only [leftLen]
        omega
      rw [harith]
      have hrec := ihl (by simp) (d + 1) (by omega)
      simp only [heightProofAux, hrec, spineList, spineEmit_append]
      simp [spineEmit, isNode]

/-- C3 as amended. During the height-proof phase the emission condition is
depth strictly greater than the computed trunk height: the whole emission
equals the concatenation, deepest spine node first, of the per-node
pattern (KVHash push, then Parent when a left child exists, then the Hash
push of the right child and Child when one exists) over exactly those
left-chain nodes whose depth exceeds the trunk height, which is half the
depth of the chain end; nodes with depth at most the trunk height emit
nothing in this phase. -/
theorem c3_height_proof_emission (t : MTree) :
    heightProofAux t 1 =
      (spineEmit (spineList t 1) (leftLen t / 2), leftLen t / 2) := by
  cases t with
  | nil => simp [heightProofAux, spineList, spineEmit, leftLen]
  | node k v l r =>
    have h := hp_emission (.node k v l r) (by simp) 1 (le_refl 1)
    rw [show (1 - 1 + leftLen (MTree.node k v l r)) / 2 =
      leftLen (MTree.node k v l r) / 2 from by omega] at h
    exact h

theorem keyLt_irrefl (a : Bytes) : keyLt a a = false := by
  induction a with
  | nil => rfl
  | cons x xs ih => simp [keyLt, ih]

theorem keyLt_asymm : ∀ (a b : Bytes), keyLt a b = true → keyLt b a = false := by
  intro a
  induction a with
  | nil =>
    intro b h
    cases b with
    | nil => simp [keyLt] at h
    | cons y ys => simp [keyLt]
  | cons x xs ih =>
    intro b h
    cases b with
    | nil => simp [keyLt] at h
    | cons y ys =>
      simp only [keyLt] at h ⊢
      by_cases h1 : x < y
      · have h2 : ¬ y < x := by omega
        simp [h1, h2]
      · by_cases h2 : y < x
        · simp [h1, h2] at h
        · rw [if_neg h1, if_neg h2] at h
          rw [if_neg h2, if_neg h1]
          exact ih ys h

theorem drain_nopop (S : List Bytes) (k : Bytes) :
    (S = [] ∨ ∃ s0 S2, S = s0 :: S2 ∧ keyLt k s0 = true) →
      drain S k = ([], S) := by
  intro hS
  rcases hS with rfl | ⟨s0, S2, rfl, hs⟩
  · rfl
  · simp [drain, hs]

theorem drain_spec (C : List Bytes) (k : Bytes) :
    ∀ (S : List Bytes), (∀ c ∈ C, keyLt k c = false) →
      (S = [] ∨ ∃ s0 S2, S = s0 :: S2 ∧ keyLt k s0 = true) →
      drain (C ++ S) k = (List.replicate C.length Op.Child, S) := by
  induction C with
  | nil =>
    intro S _ hS
    simpa using drain_nopop S k hS
  | cons c C ih =>
    intro S hC hS
    have hc : keyLt k c = false := hC c (by simp)
    have hstep : drain ((c :: C) ++ S) k =
        (Op.Child :: (drain (C ++ S) k).1, (drain (C ++ S) k).2) := by
      simp [drain, hc]
    rw [hstep, ih S (fun x hx => hC x (by simp [hx])) hS]
    simp [List.replicate_succ]

theorem run_bodyOps (T : MTree) : T ≠ .nil → ∀ P,
    execOps leafValidate (bodyOps T) P = .ok (kvTree T :: P) := by
  induction T with
  | nil => intro h; exact absurd rfl h
  | node k v l r ihl ihr =>
    intro _ P
    cases l with
    | nil =>
      cases r with
      | nil =>
        have hb : bodyOps (.node k v .nil .nil) = [Op.Push (Node.KV k v)] := rfl
        rw [hb]
        simp [execOps, leafValidate, kvTree]
      | node rk rv rl rr =>
        have hb : bodyOps (.node k v .nil (.node rk rv rl rr)) =
            Op.Push (Node.KV k v) ::
              (bodyOps (.node rk rv rl rr) ++ [Op.Child]) := rfl
        rw [hb]
        have h1 : execOps leafValidate
            (Op.Push (Node.KV k v) :: (bodyOps (.node rk rv rl rr) ++ [Op.Child]))
            P =
            execOps leafValidate (bodyOps (.node rk rv rl rr) ++ [Op.Child])
              (.pnode (.KV k v) .pnil .pnil :: P) := rfl
        rw [h1, execOps_append leafValidate _ _ _ _ (ihr (by simp) _)]
        have h2 : execOps leafValidate [Op.Child]
            (kvTree (.node rk rv rl rr) :: .pnode (.KV k v) .pnil .pnil :: P) =
            .ok (.pnode (.KV k v) .pnil (kvTree (.node rk rv rl rr)) :: P) := rfl
        rw [h2]
        simp [kvTree]
    | node lk lv ll lr =>
      cases r with
      | nil =>
        have hb : bodyOps (.node k v (.node lk lv ll lr) .nil) =
            bodyOps (.node lk lv ll lr) ++
              (Op.Push (Node.KV k v) :: [Op.Parent]) := rfl
        rw [hb, execOps_append leafValidate _ _ _ _ (ihl (by simp) P)]
        have h1 : execOps leafValidate (Op.Push (Node.KV k v) :: [Op.Parent])
            (kvTree (.node lk lv ll lr) :: P) =
            .ok (.pnode (.KV k v) (kvTree (.node lk lv ll lr)) .pnil :: P) := rfl
        rw [h1]
        simp [kvTree]
      | node rk rv rl rr =>
        have hb : bodyOps (.node k v (.node lk lv ll lr) (.node rk rv rl rr)) =
            bodyOps (.node lk lv ll lr) ++
              (Op.Push (Node.KV k v) :: ([Op.Parent] ++
                (bodyOps (.node rk rv rl rr) ++ [Op.Child]))) := rfl
        rw [hb, execOps_append leafValidate _ _ _ _ (ihl (by simp) P)]
        have h1 : execOps leafValidate
            (Op.Push (Node.KV k v) :: ([Op.Parent] ++
              (bodyOps (.node rk rv rl rr) ++ [Op.Child])))
            (kvTree (.node lk lv ll lr) :: P) =
            execOps leafValidate (bodyOps (.node rk rv rl rr) ++ [Op.Child])
              (.pnode (.KV k v) (kvTree (.node lk lv ll lr)) .pnil :: P) := rfl
        rw [h1, execOps_append leafValidate _ _ _ _ (ihr (by simp) _)]
        have h2 : execOps leafValidate [Op.Child]
            (kvTree (.node rk rv rl rr) ::
              .pnode (.KV k v) (kvTree (.node lk lv ll lr)) .pnil :: P) =
            .ok (.pnode (.KV k v) (kvTree (.node lk lv ll lr))
              (kvTree (.node rk rv rl rr)) :: P) := rfl
        rw [h2]
        simp [kvTree]

theorem chunkLoop_inorder (T : MTree) : ∀ (C S : List Bytes) (rest : List Entry)
    (ek : Option Bytes),
    isBST T = true →
    (C = [] ∨ (∃ C2, C = rootKey T :: C2 ∧ T ≠ .nil ∧
      ∀ c ∈ C2, allGt T c = true)) →
    (S = [] ∨ ∃ s0 S2, S = s0 :: S2 ∧ allLt T s0 = true) →
    (∀ e ∈ inorderEntries T, ek ≠ some e.key) →
    chunkLoop (inorderEntries T ++ rest) ek (C ++ S) =
      (bodyOps T ++ List.replicate C.length Op.Child ++
        (chunkLoop rest ek S).1,
        (chunkLoop rest ek S).2) := by
  induction T with
  | nil =>
    intro C S rest ek _ hC _ _
    have hCnil : C = [] := by
      rcases hC with rfl | ⟨C2, _, hne, _⟩
      · rfl
      · exact absurd rfl hne
    subst hCnil
    simp [inorderEntries, bodyOps]
  | node k v l r ihl ihr =>
    intro C S rest ek hB hC hS hek
    have hB2 := hB
    simp only [isBST, Bool.and_eq_true] at hB2
    obtain ⟨⟨⟨hLlt, hRgt⟩, hBl⟩, hBr⟩ := hB2
    have hekl : ∀ e ∈ inorderEntries l, ek ≠ some e.key := by
      intro e he
      refine hek e ?_
      simp only [inorderEntries, List.mem_append, List.mem_cons]
      exact Or.inl he
    have hekr : ∀ e ∈ inorderEntries r, ek ≠ some e.key := by
      intro e he
      refine hek e ?_
      simp only [inorderEntries, List.mem_append, List.mem_cons]
      exact Or.inr (Or.inr he)
    have hekroot : ¬ (ek = some (entryOf (.node k v l r)).key) := by
      refine hek (entryOf (.node k v l r)) ?_
      simp [inorderEntries]
    have hSl : (C ++ S) = [] ∨
        ∃ s0 S2, C ++ S = s0 :: S2 ∧ allLt l s0 = true := by
      rcases hC with rfl | ⟨C2, rfl, _, hC2⟩
      · rcases hS with rfl | ⟨s0, S2, rfl, hs0⟩
        · exact Or.inl rfl
        · refine Or.inr ⟨s0, S2, rfl, ?_⟩
          simp only [allLt, Bool.and_eq_true] at hs0
          exact hs0.1.2
      · refine Or.inr ⟨rootKey (.node k v l r), C2 ++ S, rfl, ?_⟩
        simpa [rootKey] using hLlt
    have hstep := ihl [] (C ++ S)
      (entryOf (.node k v l r) :: (inorderEntries r ++ rest)) ek hBl
      (Or.inl rfl) hSl hekl
    simp only [List.nil_append, List.replicate_zero, List.append_nil] at hstep
    have hsplit : inorderEntries (.node k v l r) ++ rest =
        inorderEntries l ++
          (entryOf (.node k v l r) :: (inorderEntries r ++ rest)) := by
      simp [inorderEntries]
    rw [hsplit, hstep]
    cases r with
    | nil =>
      have hCk : ∀ c ∈ C, keyLt k c = false := by
        rcases hC with rfl | ⟨C2, rfl, _, hC2⟩
        · intro c hc
          simp at hc
        · intro c hc
          rcases List.mem_cons.mp hc with rfl | hc2
          · exact keyLt_irrefl _
          · have hcc := hC2 c hc2
            simp only [allGt, Bool.and_eq_true] at hcc
            exact keyLt_asymm c k hcc.1.1
      have hSk : S = [] ∨ ∃ s0 S2, S = s0 :: S2 ∧ keyLt k s0 = true := by
        rcases hS with rfl | ⟨s0, S2, rfl, hs0⟩
        · exact Or.inl rfl
        · refine Or.inr ⟨s0, S2, rfl, ?_⟩
          simp only [allLt, Bool.and_eq_true] at hs0
          exact hs0.1.1
      have hdr := drain_spec C k S hCk hSk
      have hstep2 : chunkLoop (entryOf (.node k v l .nil) ::
          (inorderEntries .nil ++ rest)) ek (C ++ S) =
          ((Op.Push (Node.KV k v) ::
            (if (entryOf (.node k v l .nil)).leftLink.isSome then [Op.Parent]
              else [])) ++ (drain (C ++ S) k).1 ++
            (chunkLoop rest ek (drain (C ++ S) k).2).1,
            (chunkLoop rest ek (drain (C ++ S) k).2).2) := by
        simp only [chunkLoop]
        rw [if_neg hekroot]
        rfl
      rw [hstep2, hdr]
      cases l <;>
        simp [bodyOps, entryOf, List.append_assoc]
    | node rk rv rl rr =>
      have hCr : (rk :: C) = [] ∨ ∃ C2, rk :: C =
          rootKey (.node rk rv rl rr) :: C2 ∧
          (MTree.node rk rv rl rr) ≠ .nil ∧
          ∀ c ∈ C2, allGt (.node rk rv rl rr) c = true := by
        refine Or.inr ⟨C, by rw [show rootKey (.node rk rv rl rr) = rk from rfl],
          by simp, ?_⟩
        intro c hc
        rcases hC with rfl | ⟨C2, rfl, _, hC2⟩
        · simp at hc
        · rcases List.mem_cons.mp hc with rfl | hc2
          · exact hRgt
          · have hcc := hC2 c hc2
            simp only [allGt, Bool.and_eq_true] at hcc ⊢
            exact hcc.2
      have hSr : S = [] ∨ ∃ s0 S2, S = s0 :: S2 ∧
          allLt (.node rk rv rl rr) s0 = true := by
        rcases hS with rfl | ⟨s0, S2, rfl, hs0⟩
        · exact Or.inl rfl
        · refine Or.inr ⟨s0, S2, rfl, ?_⟩
          simp only [allLt, Bool.and_eq_true] at hs0 ⊢
          exact hs0.2
      have hrecr := ihr (rk :: C) S rest ek hBr hCr hSr hekr
      simp only [List.cons_append] at hrecr
      have hstep2 : chunkLoop (entryOf (.node k v l (.node rk rv rl rr)) ::
          (inorderEntries (.node rk rv rl rr) ++ rest)) ek (C ++ S) =
          ((Op.Push (Node.KV k v) ::
            (if (entryOf (.node k v l (.node rk rv rl rr))).leftLink.isSome then
              [Op.Parent] else [])) ++
            (chunkLoop (inorderEntries (.node rk rv rl rr) ++ rest) ek
              (rk :: (C ++ S))).1,
            (chunkLoop (inorderEntries (.node rk rv rl rr) ++ rest) ek
              (rk :: (C ++ S))).2) := by
        simp only [chunkLoop]
        rw [if_neg hekroot]
        rfl
      rw [hstep2, hrecr]
      cases l <;>
        simp [bodyOps, entryOf, List.append_assoc, List.replicate_succ]

/-- C7. For a store iteration obeying the sort invariant, that is, the
in-order entry listing of a search tree whose left-subtree keys precede
the node key and the node key precedes the right-subtree keys,
get_next_chunk emits an Op sequence that the proof-execution engine
replays into the complete, fully revealed subtree with every interior
child reference resolved inside the chunk; with no end key the cursor
ends past every consumed entry, and with an end key matching the next
entry the cursor also passes the end-key entry itself. -/
theorem c7_get_next_chunk (T : MTree) (hb : isBST T = true) (hne : T ≠ .nil) :
    (getNextChunk (inorderEntries T) none = (bodyOps T, []) ∧
      execute (bodyOps T) false leafValidate = .ok (kvTree T)) ∧
    (∀ (e : Entry) (rest : List Entry),
      (∀ en ∈ inorderEntries T, en.key ≠ e.key) →
      getNextChunk (inorderEntries T ++ e :: rest) (some e.key) =
        (bodyOps T, rest)) := by
  constructor
  · constructor
    · have h := chunkLoop_inorder T [] [] [] none hb (Or.inl rfl) (Or.inl rfl)
        (fun e _ => by simp)
      simp only [List.append_nil, List.nil_append, List.replicate_zero] at h
      unfold getNextChunk
      rw [h]
      simp [chunkLoop]
    · have hrun := run_bodyOps T hne []
      unfold execute
      rw [hrun]
  · intro e rest hk
    have h := chunkLoop_inorder T [] [] (e :: rest) (some e.key) hb
      (Or.inl rfl) (Or.inl rfl)
      (fun en hen hcon => hk en hen (by injection hcon with h2; exact h2.symm))
    simp only [List.nil_append, List.replicate_zero, List.append_nil] at h
    unfold getNextChunk
    rw [h]
    have hbreak : chunkLoop (e :: rest) (some e.key) [] = ([], e :: rest) := by
      simp [chunkLoop]
    rw [hbreak]
    simp

/-- C7 witness: the three-node balanced search tree scanned whole, and the
same tree scanned with an end key one past its range, both through the
theorem. -/
theorem c7_get_next_chunk_witness :
    ((getNextChunk (inorderEntries tThree) none = (bodyOps tThree, []) ∧
      execute (bodyOps tThree) false leafValidate = .ok (kvTree tThree)) ∧
      getNextChunk (inorderEntries tThree ++ [⟨[9], [], none, none⟩])
        (some [9]) = (bodyOps tThree, [])) := by
  have h := c7_get_next_chunk tThree (by decide) (by decide)
  exact ⟨h.1, h.2 ⟨[9], [], none, none⟩ [] (by decide)⟩

end Merk
